import Mathlib

/-!
Verification of the ANCHOR autonomous repair/improvement tooling.

Shallow embedding of the control/state machinery of
`Tools/improve_features_v2.py`, `Tools/ai_fix.py` and `Tools/improver_loop.py`.

Modelling conventions:
* Python strings are `List Char` (`Str`); `str.rstrip`, `str.split("\n")`,
  `"\n".join`, substring tests and regex word tokenisation are implemented
  directly on character lists (ASCII character classes stand in for Python's
  unicode-aware ones).
* SHA-256 digests are modelled by the identity function: the scripts only ever
  compare digests for equality, so any injective digest function is a faithful
  model of the comparisons.
* The filesystem, the written-hash ledger, the issue database and the cache are
  insertion-ordered association lists, mirroring Python dicts; timestamps and
  log output are elided.
* Floating point arithmetic in the confidence scorer is modelled over `ℚ`.
-/

namespace Anchor

/-- Python strings, modelled as lists of characters. -/
abbrev Str := List Char

/-- Assignment `d[k] = v` on an insertion-ordered dict: replace the first
binding of `k` in place, else append at the end. -/
def setAssoc {β : Type} (k : Str) (v : β) : List (Str × β) → List (Str × β)
  | [] => [(k, v)]
  | e :: t => if e.1 == k then (k, v) :: t else e :: setAssoc k v t

/-- Keys of an association list (dict key view). -/
def keysOf {β : Type} (l : List (Str × β)) : List Str := l.map Prod.fst

namespace ImproveV2

/-- Characters stripped by Python's argument-less `str.rstrip`
(the ASCII whitespace characters). -/
def isPySpace (c : Char) : Bool :=
  c == ' ' || c == '\t' || c == '\n' || c == '\r' ||
    c == Char.ofNat 11 || c == Char.ofNat 12

/-- Python `ln.rstrip()`: drop trailing whitespace. -/
def rstrip (l : Str) : Str := (l.reverse.dropWhile isPySpace).reverse

/-- Line-ending unification of `normalize_text`:
`s.replace("\r\n", "\n").replace("\r", "\n")`. -/
def unifyEol : Str → Str
  | [] => []
  | '\r' :: '\n' :: rest => '\n' :: unifyEol rest
  | '\r' :: rest => '\n' :: unifyEol rest
  | c :: rest => c :: unifyEol rest

/-- Python `s.split("\n")` (always returns one more part than separators). -/
def splitNl : Str → List Str
  | [] => [[]]
  | c :: cs =>
    match splitNl cs with
    | [] => [[c]]
    | h :: t => if c = '\n' then [] :: h :: t else (c :: h) :: t

/-- The duplicate-blank-line loop of `normalize_text` (`prev_blank` is the
accumulator of the Python `for` loop). -/
def collapseBlanks (prevBlank : Bool) : List Str → List Str
  | [] => []
  | l :: ls =>
    if l.isEmpty && prevBlank then collapseBlanks prevBlank ls
    else l :: collapseBlanks l.isEmpty ls

/-- Python `"\n".join(lines)`. -/
def joinNl : List Str → Str
  | [] => []
  | [a] => a
  | a :: b :: t => a ++ '\n' :: joinNl (b :: t)

/-- Function `normalize_text` of `Tools/improve_features_v2.py`: unify line
endings, strip trailing whitespace per line, collapse repeated blank lines,
then `("\n".join(out_lines)).rstrip() + "\n"`. -/
def normalize_text (s : Str) : Str :=
  rstrip (joinNl (collapseBlanks false ((splitNl (unifyEol s)).map rstrip))) ++ ['\n']

/-- Model of `sha256_text`: an injective digest (identity), since the script
only compares digests for equality. -/
def sha256_text (s : Str) : Str := s

/-- Final path component, as `pathlib.PurePath.name` on a path string. -/
def pathName (p : Str) : Str := (p.reverse.takeWhile (fun c => c != '/')).reverse

/-- Extension of a file name, as `pathlib` computes `.suffix`: the part from
the last dot on, provided the dot is neither the first nor the last
character of the name. -/
def pyExt (n : Str) : Str :=
  let r := n.reverse
  let ext := r.takeWhile (fun c => c != '.')
  match r.dropWhile (fun c => c != '.') with
  | [] => []
  | _ :: stemRev => if ext.isEmpty || stemRev.isEmpty then [] else '.' :: ext.reverse

/-- Parent directory of a path string, as `pathlib.PurePath.parent`. -/
def parentDir (p : Str) : Str :=
  match p.reverse.dropWhile (fun c => c != '/') with
  | [] => ['.']
  | _ :: r => r.reverse

/-- Python `str.isalpha` (ASCII model): nonempty and all alphabetic. -/
def pyIsAlpha (n : Str) : Bool := !n.isEmpty && n.all Char.isAlpha

/-- The `bad_names` set of the suspicious-filename guard in `atomic_write`. -/
def badNames : List Str := ["py".toList, "tmp".toList, "tmpfile".toList, []]

/-- The suspicious-filename guard of `atomic_write`:
`path.name in bad_names or (len(path.name) <= 3 and path.suffix == "" and
path.name.isalpha())`. -/
def suspiciousName (p : Str) : Bool :=
  let n := pathName p
  badNames.contains n ||
    (decide (n.length ≤ 3) && (pyExt n).isEmpty && pyIsAlpha n)

/-- Module constant `ALLOW_CREATE` of `Tools/improve_features_v2.py`
(set to `False` at module top level and never reassigned). -/
def ALLOW_CREATE : Bool := false

/-- State touched by `atomic_write`: the filesystem (path to raw content),
the set of existing directories, and the persisted written-hash ledger. -/
structure FsState where
  fs : List (Str × Str)
  dirs : List Str
  hashes : List (Str × Str)
deriving DecidableEq

/-- Ledger self-repair performed inside the no-op branches of `atomic_write`:
`if hashes.get(str(path)) != new_hash: hashes[str(path)] = new_hash`. -/
def repairLedger (st : FsState) (path h : Str) : FsState :=
  if st.hashes.lookup path == some h then st
  else { st with hashes := setAssoc path h st.hashes }

/-- The tail of `atomic_write`: the non-aggressive cached-hash skip, the
parent-directory check (the `mkdir` branch is dead because `ALLOW_CREATE` is
the constant `False`), and the write-to-temp-then-rename, whose net effect on
the target path is one atomic update. -/
def writeStep (aggressive : Bool) (st : FsState) (path newNorm newHash : Str) :
    FsState × Bool :=
  if !aggressive && st.hashes.lookup path == some newHash &&
      (match st.fs.lookup path with
       | some o => sha256_text o == newHash
       | none => false) then
    (st, false)
  else if !ALLOW_CREATE && !st.dirs.contains (parentDir path) then
    (st, false)
  else
    ({ st with
        fs := setAssoc path newNorm st.fs,
        hashes := setAssoc path newHash st.hashes }, true)

/-- Function `atomic_write` of `Tools/improve_features_v2.py`.  Mirrors the
source order: dry-run report, creation-disabled check, suspicious-name guard,
normalisation, the two on-disk no-op checks (normalised and raw), then
`writeStep`.  Exceptions (unreadable files) are not modelled: reads succeed. -/
def atomic_write (aggressive : Bool) (st : FsState) (path contents : Str)
    (dry : Bool) : FsState × Bool :=
  if dry then (st, true)
  else if !ALLOW_CREATE && (st.fs.lookup path).isNone then (st, false)
  else if suspiciousName path then (st, false)
  else
    let newNorm := normalize_text contents
    let newHash := sha256_text newNorm
    match st.fs.lookup path with
    | some old =>
      if sha256_text (normalize_text old) == newHash then
        (repairLedger st path newHash, false)
      else if sha256_text old == newHash then
        (repairLedger st path newHash, false)
      else writeStep aggressive st path newNorm newHash
    | none => writeStep aggressive st path newNorm newHash

/-- No two consecutive blank lines. -/
def NoTwoBlank (L : List Str) : Prop :=
  L.Chain' (fun a b => a = [] → b ≠ [])

/-- Trailing blank lines removed (the effect of the final `.rstrip()` on the
joined lines, at the line level). -/
def dropTrailBlanks (M : List Str) : List Str :=
  (M.reverse.dropWhile List.isEmpty).reverse

/-- The line list built by `normalize_text` before the final join. -/
def midLines (s : Str) : List Str :=
  collapseBlanks false ((splitNl (unifyEol s)).map rstrip)

/-- One generator pass: `dict` of path to proposed file contents. -/
abbrev Proposal := List (Str × Str)

/-- The stable-proposal filter in `main` of `Tools/improve_features_v2.py`:
starting from the first pass, keep exactly the paths whose content is
byte-identical in every later pass
(`all(path in p and p[path] == content for p in proposals_passes[1:])`). -/
def stableProposals : List Proposal → Proposal
  | [] => []
  | first :: rest =>
    first.filter (fun e => rest.all (fun m => m.lookup e.1 == some e.2))

end ImproveV2

namespace ImproverLoop

/-- Function `compute_confidence` of `Tools/improver_loop.py`, with the float
arithmetic modelled over `ℚ`.  The three dict entries `num_call_sites`,
`llm_confidence` and `tests_impact` are passed as arguments. -/
def compute_confidence (num_call_sites llm_confidence tests_impact : ℚ) : ℚ :=
  let score : ℚ := 0
  let score := score + min 0.4 (0.05 * num_call_sites)
  let score := score + min 0.5 (llm_confidence * 0.5)
  let score := if 0 < tests_impact then score * 0.3 else score
  min 1 score

end ImproverLoop

namespace AiFix

/-- Model of `sha256` in `Tools/ai_fix.py`: an injective digest (identity). -/
def sha256 (s : Str) : Str := s

/-- Characters matched by the regex class `\w` (ASCII model). -/
def isWordChar (c : Char) : Bool := c.isAlphanum || c == '_'

/-- Accumulator pass extracting the maximal `\w+` runs of a string
(`cur` holds the current run, reversed). -/
def tokenizeAux (cur : Str) : Str → List Str
  | [] => if cur.isEmpty then [] else [cur.reverse]
  | c :: cs =>
    if isWordChar c then tokenizeAux (c :: cur) cs
    else if cur.isEmpty then tokenizeAux [] cs
    else cur.reverse :: tokenizeAux [] cs

/-- Word tokens of a lowered string: `re.findall(r"\w+", a.lower())`. -/
def tokens (a : Str) : List Str := tokenizeAux [] (a.map Char.toLower)

/-- The Python `set(...)` of word tokens. -/
def tokenSet (a : Str) : Finset Str := (tokens a).toFinset

/-- Function `token_overlap` of `Tools/ai_fix.py`: case-insensitive word-set
intersection size divided by the smaller set size, with the two emptiness
guards of the source. -/
def token_overlap (a b : Str) : ℚ :=
  if a.isEmpty || b.isEmpty then 0
  else
    let ta := tokenSet a
    let tb := tokenSet b
    if ta = ∅ ∨ tb = ∅ then 0
    else ((ta ∩ tb).card : ℚ) / min (ta.card : ℚ) (tb.card : ℚ)

/-- Function `same_issue_sig` of `Tools/ai_fix.py`. -/
def same_issue_sig (a b : Str) : Bool :=
  if a.isEmpty || b.isEmpty then false
  else if decide (a <:+: b) || decide (b <:+: a) then true
  else decide (token_overlap a b ≥ 1/2)

/-- A detected issue: id (digest of the signature) and normalized signature.
The `sample` field is never consulted by the control flow and is elided. -/
structure Issue where
  id : Str
  signature : Str
deriving DecidableEq

/-- A stored resolution in `issues.json`: signature, per-path fix contents and
reuse counter.  Timestamp bookkeeping (`createdAt`, `savedAt`,
`lastAppliedAt`) is elided. -/
structure Stored where
  signature : Str
  files : List (Str × Str)
  reuseCount : Nat
deriving DecidableEq

/-- The persisted issue database `issues_db` (a Python dict). -/
abbrev DB := List (Str × Stored)

/-- Whether a stored resolution fuzzily matches some currently detected
issue (the inner loop building `current_matches`). -/
def matchesCurrent (cur : List Issue) (s : Stored) : Bool :=
  cur.any (fun c => same_issue_sig s.signature c.signature)

/-- The auto-forget loop of `Tools/ai_fix.py`: delete every stored issue whose
signature matches no currently detected issue. -/
def autoForget (db : DB) (cur : List Issue) : DB :=
  db.filter (fun e => matchesCurrent cur e.2)

/-- The stored-solution search in the per-file flow: the first stored entry
whose signature fuzzily matches the given current signature. -/
def findStored (db : DB) (sig : Str) : Option (Str × Stored) :=
  db.find? (fun e => same_issue_sig e.2.signature sig)

/-- In-place mutation of one stored entry (Python mutates the dict value). -/
def dbUpdate (db : DB) (sid : Str) (v : Stored) : DB :=
  db.map (fun e => if e.1 == sid then (sid, v) else e)

/-- Result of the stored-solution phase for one file: the updated database,
the `applied_stored` flag, and — when a stored fix was actually written —
the applied issue id and content. -/
structure StoredPhaseResult where
  db : DB
  applied : Bool
  wrote : Option (Str × Str)
deriving DecidableEq

/-- The stored-solution reuse loop of the per-file flow in `Tools/ai_fix.py`
(`for cur in current_issues: ...`): look up a fuzzily matching stored entry
with a fix for this file; identical content is a no-op; a stored entry at the
reuse limit is skipped (flagged for manual review); in dry-run nothing is
written; otherwise the stored content is written and `reuseCount`
incremented. -/
def applyStoredPhase (maxReuse : Nat) (dry : Bool) (db : DB)
    (content path : Str) : List Issue → StoredPhaseResult
  | [] => ⟨db, false, none⟩
  | c :: rest =>
    match findStored db c.signature with
    | none => applyStoredPhase maxReuse dry db content path rest
    | some (sid, s) =>
      match s.files.lookup path with
      | none => applyStoredPhase maxReuse dry db content path rest
      | some sc =>
        if sc.isEmpty then applyStoredPhase maxReuse dry db content path rest
        else if sc == content then ⟨db, true, none⟩
        else if maxReuse ≤ s.reuseCount then
          applyStoredPhase maxReuse dry db content path rest
        else if dry then ⟨db, true, none⟩
        else ⟨dbUpdate db sid { s with reuseCount := s.reuseCount + 1 },
              true, some (sid, sc)⟩

/-- A fresh issue-db entry created by `issues_db.setdefault(cur["id"], ...)`. -/
def newStored (sig : Str) : Stored := ⟨sig, [], 0⟩

/-- Python `issues_db.setdefault(sid, fresh entry)`. -/
def dbSetdefault (db : DB) (sid sig : Str) : DB :=
  if (db.lookup sid).isSome then db else db ++ [(sid, newStored sig)]

/-- Python `issues_db[sid]["files"][file_path] = fixed`. -/
def dbSetFile (db : DB) (sid path c : Str) : DB :=
  db.map (fun e =>
    if e.1 == sid then (e.1, { e.2 with files := setAssoc path c e.2.files })
    else e)

/-- The save condition of the per-file flow:
`same_issue_sig(cur["signature"], fixed) or same_issue_sig(cur["signature"],
content) or file_path in excerpt`. -/
def stageCond (path excerpt content fixed : Str) (c : Issue) : Bool :=
  same_issue_sig c.signature fixed || same_issue_sig c.signature content ||
    decide (path <:+: excerpt)

/-- The save-fix loop of the per-file flow: for each current issue satisfying
the save condition, `setdefault` its db entry and record the fix. -/
def stageFix (cur : List Issue) (cond : Issue → Bool) (db : DB)
    (path fixed : Str) : DB :=
  cur.foldl
    (fun d c =>
      if cond c then dbSetFile (dbSetdefault d c.id c.signature) c.id path fixed
      else d)
    db

/-- Result of the AI phase for one file. -/
structure AiPhaseResult where
  fs : List (Str × Str)
  cache : List (Str × Str)
  db : DB
  wrote : Bool
deriving DecidableEq

/-- The AI phase of the per-file flow in `Tools/ai_fix.py`, entered with a
verified candidate `fixed`: the duplicate-output guard against the cached
`lastHash`, the no-op check against the current content, the dry-run staging
path, and the real apply (write, cache update, save to `issues_db`). -/
def aiPhase (dry : Bool) (cur : List Issue) (fs cache : List (Str × Str))
    (db : DB) (key path content excerpt fixed : Str) : AiPhaseResult :=
  let fixedHash := sha256 fixed
  if cache.lookup key == some fixedHash then ⟨fs, cache, db, false⟩
  else if fixed == content then ⟨fs, setAssoc key fixedHash cache, db, false⟩
  else if dry then
    ⟨fs, setAssoc key fixedHash cache,
      stageFix cur (stageCond path excerpt content fixed) db path fixed, false⟩
  else
    ⟨setAssoc path fixed fs, setAssoc key fixedHash cache,
      stageFix cur (stageCond path excerpt content fixed) db path fixed, true⟩

/-- The per-file inputs of one iteration of the main loop: target path, its
current content, its cache key (`os.path.realpath`), the log excerpt, and the
verified AI candidate (`none` when `ai_analyze_then_fix` produced none). -/
structure FileTask where
  path : Str
  content : Str
  key : Str
  excerpt : Str
  fixed : Option Str
deriving DecidableEq

/-- Mutable run state threaded through the main loop. -/
structure RunState where
  fs : List (Str × Str)
  cache : List (Str × Str)
  db : DB
deriving DecidableEq

/-- One iteration of the main per-file loop: the stored-solution phase, then —
if nothing stored applied and a verified candidate exists — the AI phase. -/
def processFile (maxReuse : Nat) (dry : Bool) (cur : List Issue)
    (st : RunState) (t : FileTask) : RunState :=
  let r := applyStoredPhase maxReuse dry st.db t.content t.path cur
  if r.applied then
    { st with
        db := r.db,
        fs := match r.wrote with
              | some (_, c) => setAssoc t.path c st.fs
              | none => st.fs }
  else
    match t.fixed with
    | none => { st with db := r.db }
    | some fx =>
      let a := aiPhase dry cur st.fs st.cache r.db t.key t.path t.content
        t.excerpt fx
      ⟨a.fs, a.cache, a.db⟩

/-- The run of `Tools/ai_fix.py` from issue detection to persistence: fuzzy
matching and auto-forget on the loaded database, then the per-file loop; the
final `safe_write(ISSUES_DB, json.dumps(issues_db))` persists the resulting
database unchanged. -/
def runAiFix (maxReuse : Nat) (dry : Bool) (db : DB) (cur : List Issue)
    (fs cache : List (Str × Str)) (tasks : List FileTask) : RunState :=
  tasks.foldl (processFile maxReuse dry cur) ⟨fs, cache, autoForget db cur⟩

end AiFix

end Anchor

namespace Anchor

theorem lookup_cons_eq {β : Type} (k : Str) (v : β) (t : List (Str × β)) :
    ((k, v) :: t).lookup k = some v := by
  simp [List.lookup_cons]

theorem lookup_cons_ne {β : Type} {k a : Str} (v : β) (t : List (Str × β))
    (h : k ≠ a) : ((a, v) :: t).lookup k = t.lookup k := by
  have hb : (k == a) = false := by simpa using h
  simp [List.lookup_cons, hb]

theorem lookup_setAssoc_self {β : Type} (k : Str) (v : β) (l : List (Str × β)) :
    (setAssoc k v l).lookup k = some v := by
  induction l with
  | nil => simp [setAssoc, lookup_cons_eq]
  | cons e t ih =>
    by_cases h : e.1 = k
    · simp [setAssoc, h, lookup_cons_eq]
    · have h' : (e.1 == k) = false := by simpa using h
      rw [setAssoc]
      simp only [h', Bool.false_eq_true, if_false]
      obtain ⟨a, b⟩ := e
      rw [lookup_cons_ne _ _ (fun hk => h hk.symm)]
      exact ih

theorem lookup_eq_none_of_not_mem_keys {β : Type} {l : List (Str × β)} {k : Str}
    (h : k ∉ keysOf l) : l.lookup k = none := by
  induction l with
  | nil => rfl
  | cons e t ih =>
    obtain ⟨a, b⟩ := e
    have hcons : keysOf ((a, b) :: t) = a :: keysOf t := rfl
    have hk : k ≠ a := by
      rintro rfl
      exact h (by rw [hcons]; exact List.mem_cons_self _ _)
    have ht : k ∉ keysOf t := fun hm => h (by rw [hcons]; exact List.mem_cons_of_mem _ hm)
    rw [lookup_cons_ne _ _ hk]
    exact ih ht

theorem keysOf_filter_subset {β : Type} (p : Str × β → Bool) (l : List (Str × β)) :
    keysOf (l.filter p) ⊆ keysOf l := by
  intro k hk
  simp only [keysOf, List.mem_map] at hk ⊢
  obtain ⟨e, he, hek⟩ := hk
  exact ⟨e, (List.mem_filter.mp he).1, hek⟩

theorem lookup_filter_nodup {β : Type} (p : Str × β → Bool) (l : List (Str × β))
    (hnd : (keysOf l).Nodup) (k : Str) (c : β) :
    (l.filter p).lookup k = some c ↔ l.lookup k = some c ∧ p (k, c) = true := by
  induction l with
  | nil => simp
  | cons e t ih =>
    obtain ⟨a, b⟩ := e
    have hnda : a ∉ keysOf t := by
      simp only [keysOf, List.map_cons, List.nodup_cons] at hnd
      exact hnd.1
    have hndt : (keysOf t).Nodup := by
      simp only [keysOf, List.map_cons, List.nodup_cons] at hnd
      exact hnd.2
    by_cases hk : k = a
    · subst hk
      by_cases hp : p (k, b) = true
      · rw [List.filter_cons_of_pos hp, lookup_cons_eq, lookup_cons_eq]
        constructor
        · rintro h; cases h; exact ⟨rfl, hp⟩
        · rintro ⟨h, _⟩; exact h
      · rw [List.filter_cons_of_neg hp, lookup_cons_eq]
        rw [lookup_eq_none_of_not_mem_keys
          (fun hm => hnda (keysOf_filter_subset p t hm))]
        constructor
        · rintro h; cases h
        · rintro ⟨h, hc⟩; cases h; exact absurd hc hp
    · have step : (((a, b) :: t).filter p).lookup k = (t.filter p).lookup k := by
        by_cases hp : p (a, b) = true
        · rw [List.filter_cons_of_pos hp, lookup_cons_ne _ _ hk]
        · rw [List.filter_cons_of_neg hp]
      rw [step, lookup_cons_ne _ _ hk]
      exact ih hndt

end Anchor

namespace Anchor.ImproverLoop

/-- C3 counterexample: the code only clamps the score from above
(`min(1.0, score)`); with `callSiteEvidence = 0`, `selfReportedConfidence = -1`
and `testImpact = 0` the returned score is `-1/2`, which is not the value
`0` that clamping to `[0,1]` would produce, so the claimed formula is false
at this input. -/
theorem C3_confidence_counterexample :
    compute_confidence 0 (-1) 0 = -(1/2) ∧ compute_confidence 0 (-1) 0 < 0 := by
  norm_num [compute_confidence]

/-- C3 (amended): for every metrics input the score equals
`min(0.4, 0.05*callSiteEvidence) + min(0.5, selfReportedConfidence*0.5)`,
multiplied by `0.3` when `testImpact > 0`, clamped **above** by 1 only (there
is no lower clamp); for nonnegative `callSiteEvidence` and
`selfReportedConfidence` the score lies in `[0,1]`; and
`Score(10, 1.0, 0) = 0.9` while `Score(10, 1.0, 1) = 0.27`. -/
theorem C3_confidence_amended :
    (∀ n l t : ℚ, compute_confidence n l t =
      min 1 ((min 0.4 (0.05 * n) + min 0.5 (l * 0.5)) *
        (if 0 < t then 0.3 else 1))) ∧
    compute_confidence 10 1 0 = 9/10 ∧
    compute_confidence 10 1 1 = 27/100 ∧
    (∀ n l t : ℚ, 0 ≤ n → 0 ≤ l →
      0 ≤ compute_confidence n l t ∧ compute_confidence n l t ≤ 1) := by
  refine ⟨?_, by norm_num [compute_confidence], by norm_num [compute_confidence], ?_⟩
  · intro n l t
    by_cases h : 0 < t <;> simp [compute_confidence, h, mul_comm]
  · intro n l t hn hl
    have h1 : (0:ℚ) ≤ min 0.4 (0.05 * n) := le_min (by norm_num) (by positivity)
    have h2 : (0:ℚ) ≤ min 0.5 (l * 0.5) := le_min (by norm_num) (by positivity)
    have hs : (0:ℚ) ≤ min 0.4 (0.05 * n) + min 0.5 (l * 0.5) := by linarith
    constructor
    · by_cases h : 0 < t <;>
        simp [compute_confidence, h, le_min_iff] <;> nlinarith
    · simp [compute_confidence]

theorem C3_confidence_witness :
    (0:ℚ) ≤ 3 ∧ (0:ℚ) ≤ 1 ∧ 0 ≤ compute_confidence 3 1 7 ∧
      compute_confidence 3 1 7 ≤ 1 := by
  have h := C3_confidence_amended.2.2.2 3 1 7 (by norm_num) (by norm_num)
  exact ⟨by norm_num, by norm_num, h.1, h.2⟩

end Anchor.ImproverLoop

namespace Anchor.ImproveV2

/-- C1 counterexample: for pass contents `["A","B","C","D","D"]` for path
`"f"`, the convergence filter of `main` drops the path entirely (the result
is the empty proposal), instead of accepting `"D"` as the claim states. -/
theorem C1_convergence_counterexample :
    stableProposals
      [[("f".toList, "A".toList)], [("f".toList, "B".toList)],
       [("f".toList, "C".toList)], [("f".toList, "D".toList)],
       [("f".toList, "D".toList)]] = [] := by decide

/-- C1 (amended): the filter accepts a path's content iff the path is
proposed in the first pass and **every** later pass proposes byte-identical
content for it; there is no majority vote and no last-two-passes fallback,
so for pass contents `["A","B","C","D","D"]` the path is dropped. -/
theorem C1_convergence_amended :
    (∀ (first : Proposal) (rest : List Proposal) (k c : Str),
      (Anchor.keysOf first).Nodup →
      ((stableProposals (first :: rest)).lookup k = some c ↔
        first.lookup k = some c ∧ ∀ m ∈ rest, m.lookup k = some c)) ∧
    stableProposals
      [[("f".toList, "A".toList)], [("f".toList, "B".toList)],
       [("f".toList, "C".toList)], [("f".toList, "D".toList)],
       [("f".toList, "D".toList)]] = [] := by
  constructor
  · intro first rest k c hnd
    unfold stableProposals
    rw [Anchor.lookup_filter_nodup _ _ hnd]
    simp [List.all_eq_true]
  · decide

theorem C1_convergence_witness :
    (Anchor.keysOf [("f".toList, "A".toList)]).Nodup ∧
    (stableProposals
      [[("f".toList, "A".toList)], [("f".toList, "A".toList)]]).lookup
        "f".toList = some "A".toList := by
  refine ⟨by decide, ?_⟩
  exact (C1_convergence_amended.1 [("f".toList, "A".toList)]
    [[("f".toList, "A".toList)]] "f".toList "A".toList (by decide)).mpr
    ⟨by decide, by decide⟩

end Anchor.ImproveV2

namespace Anchor.ImproveV2

/-- C5 counterexample: the target name `a1` has length 2 and no extension, so
the claim says the write must be refused; but the guard in `atomic_write`
additionally requires `path.name.isalpha()`, so the write goes through: it
returns `True` and mutates the filesystem. -/
theorem C5_suspicious_guard_counterexample :
    (pathName "d/a1".toList).length ≤ 3 ∧ pyExt (pathName "d/a1".toList) = [] ∧
    (atomic_write true ⟨[("d/a1".toList, "old\n".toList)], ["d".toList], []⟩
        "d/a1".toList "new".toList false).2 = true ∧
    (atomic_write true ⟨[("d/a1".toList, "old\n".toList)], ["d".toList], []⟩
        "d/a1".toList "new".toList false).1.fs.lookup "d/a1".toList =
      some "new\n".toList := by
  refine ⟨by decide, by decide, by decide, by decide⟩

/-- C5 (amended): the guard refuses exactly the names in
`{"py", "tmp", "tmpfile", ""}` together with the names of length at most 3
that have no extension and are entirely alphabetic; for every such target
path the non-dry write performs no filesystem mutation and returns failure.
(Short extension-less names containing a digit are not refused.) -/
theorem C5_suspicious_guard_amended (agg : Bool) (st : FsState)
    (path contents : Str) (h : suspiciousName path = true) :
    atomic_write agg st path contents false = (st, false) := by
  unfold atomic_write
  by_cases he : (st.fs.lookup path).isNone <;>
    simp [he, ALLOW_CREATE, h]

theorem C5_suspicious_guard_witness :
    suspiciousName "d/tmp".toList = true ∧
    atomic_write true ⟨[], [], []⟩ "d/tmp".toList "x".toList false =
      (⟨[], [], []⟩, false) :=
  ⟨by decide, C5_suspicious_guard_amended true ⟨[], [], []⟩ "d/tmp".toList
    "x".toList (by decide)⟩

/-- C2 counterexample: when the on-disk content already equals the
normalized content, the first call to `atomic_write` is a no-op returning
`written = False`, so the claimed `written=true then written=false` pattern
does not hold for every `(path, content)` pair. -/
theorem C2_idempotent_write_counterexample :
    (atomic_write true ⟨[("d/f.txt".toList, "x\n".toList)], ["d".toList], []⟩
        "d/f.txt".toList "x\n".toList false).2 = false := by
  decide

end Anchor.ImproveV2

namespace Anchor.ImproveV2

theorem dropWhile_dropWhile {α : Type} (p : α → Bool) (l : List α) :
    (l.dropWhile p).dropWhile p = l.dropWhile p := by
  induction l with
  | nil => rfl
  | cons a t ih =>
    by_cases h : p a = true
    · rw [List.dropWhile_cons_of_pos h, ih]
    · rw [List.dropWhile_cons_of_neg h, List.dropWhile_cons_of_neg h]

theorem mem_rstrip {c : Char} {l : Str} (h : c ∈ rstrip l) : c ∈ l := by
  unfold rstrip at h
  rw [List.mem_reverse] at h
  exact List.mem_reverse.mp ((List.dropWhile_sublist _).mem h)

theorem rstrip_idem (l : Str) : rstrip (rstrip l) = rstrip l := by
  unfold rstrip
  rw [List.reverse_reverse, dropWhile_dropWhile]

theorem rstrip_nil : rstrip [] = [] := rfl

theorem dropWhile_eq_self_of_head {α : Type} {p : α → Bool} {a : α} {t : List α}
    (h : p a = false) : (a :: t).dropWhile p = a :: t :=
  List.dropWhile_cons_of_neg (by simp [h])

theorem head_not_space_of_rstrip_fix {h : Char} {t : Str}
    (hfix : (h :: t).dropWhile isPySpace = h :: t) : isPySpace h = false := by
  by_cases hp : isPySpace h = true
  · rw [List.dropWhile_cons_of_pos hp] at hfix
    have hlen := congrArg List.length hfix
    have hle := (List.dropWhile_sublist (l := t) isPySpace).length_le
    simp at hlen
    omega
  · simpa using hp

theorem rstrip_append_fix {x y : Str} (hy : rstrip y = y) (hne : y ≠ []) :
    rstrip (x ++ y) = x ++ y := by
  have hyrev : y.reverse.dropWhile isPySpace = y.reverse := by
    have := congrArg List.reverse hy
    rw [rstrip, List.reverse_reverse] at this
    exact this
  obtain ⟨h, t, hht⟩ : ∃ h t, y.reverse = h :: t := by
    cases hyr : y.reverse with
    | nil => exact absurd (by simpa using congrArg List.reverse hyr) hne
    | cons h t => exact ⟨h, t, rfl⟩
  have hh : isPySpace h = false := head_not_space_of_rstrip_fix (hht ▸ hyrev)
  have hy2 : y = t.reverse ++ [h] := by
    have := congrArg List.reverse hht
    simpa using this
  unfold rstrip
  rw [List.reverse_append, hht, List.cons_append,
    List.dropWhile_cons_of_neg (by simp [hh]), hy2]
  simp [List.append_assoc]

theorem rstrip_append_space {x : Str} {c : Char} (hc : isPySpace c = true) :
    rstrip (x ++ [c]) = rstrip x := by
  unfold rstrip
  rw [List.reverse_append]
  simp only [List.reverse_cons, List.reverse_nil, List.nil_append,
    List.singleton_append]
  rw [List.dropWhile_cons_of_pos hc]

theorem splitNl_ne_nil (s : Str) : splitNl s ≠ [] := by
  cases s with
  | nil => simp [splitNl]
  | cons c cs =>
    unfold splitNl
    cases splitNl cs with
    | nil => simp
    | cons h t =>
      by_cases hc : c = '\n' <;> simp [hc]

theorem noNl_splitNl {s l : Str} (hl : l ∈ splitNl s) : '\n' ∉ l := by
  induction s generalizing l with
  | nil =>
    simp [splitNl] at hl
    simp [hl]
  | cons c cs ih =>
    unfold splitNl at hl
    cases hsp : splitNl cs with
    | nil => exact absurd hsp (splitNl_ne_nil cs)
    | cons h t =>
      rw [hsp] at hl
      by_cases hc : c = '\n'
      · simp [hc] at hl
        rcases hl with hl | hl | hl
        · simp [hl]
        · subst hl
          exact ih (by rw [hsp]; exact List.mem_cons_self _ _)
        · exact ih (by rw [hsp]; exact List.mem_cons_of_mem _ hl)
      · simp [hc] at hl
        rcases hl with hl | hl
        · subst hl
          intro hmem
          rcases List.mem_cons.mp hmem with h1 | h1
          · exact hc h1.symm
          · exact ih (by rw [hsp]; exact List.mem_cons_self _ _) h1
        · exact ih (by rw [hsp]; exact List.mem_cons_of_mem _ hl)

theorem mem_of_mem_splitNl {s l : Str} {c : Char} (hc : c ∈ l)
    (hl : l ∈ splitNl s) : c ∈ s := by
  induction s generalizing l with
  | nil =>
    simp [splitNl] at hl
    subst hl
    simp at hc
  | cons a cs ih =>
    unfold splitNl at hl
    cases hsp : splitNl cs with
    | nil => exact absurd hsp (splitNl_ne_nil cs)
    | cons h t =>
      rw [hsp] at hl
      by_cases ha : a = '\n'
      · simp [ha] at hl
        rcases hl with hl | hl | hl
        · subst hl; simp at hc
        · subst hl
          exact List.mem_cons_of_mem _ (ih hc (by rw [hsp]; exact List.mem_cons_self _ _))
        · exact List.mem_cons_of_mem _ (ih hc (by rw [hsp]; exact List.mem_cons_of_mem _ hl))
      · simp [ha] at hl
        rcases hl with hl | hl
        · subst hl
          rcases List.mem_cons.mp hc with h1 | h1
          · exact h1 ▸ List.mem_cons_self _ _
          · exact List.mem_cons_of_mem _ (ih h1 (by rw [hsp]; exact List.mem_cons_self _ _))
        · exact List.mem_cons_of_mem _ (ih hc (by rw [hsp]; exact List.mem_cons_of_mem _ hl))

end Anchor.ImproveV2

namespace Anchor.ImproveV2

theorem unifyEol_cons_of_ne (c : Char) (rest : Str) (hc : c ≠ '\r') :
    unifyEol (c :: rest) = c :: unifyEol rest := by
  rw [unifyEol.eq_def]
  split
  · rename_i heq; exact absurd heq (by simp)
  · rename_i heq
    injection heq with h1 h2
    exact absurd h1 hc
  · rename_i heq
    injection heq with h1 h2
    exact absurd h1 hc
  · rename_i heq
    injection heq with h1 h2
    rw [h1, h2]

theorem noCr_unifyEol (s : Str) : '\r' ∉ unifyEol s := by
  induction s using unifyEol.induct with
  | case1 => simp [unifyEol]
  | case2 rest ih => simp [unifyEol]; exact ih
  | case3 rest h ih => simp [unifyEol]; exact ih
  | case4 c rest h1 h2 ih =>
    rw [unifyEol_cons_of_ne c rest (fun hcr => h2 hcr)]
    intro hm
    rcases List.mem_cons.mp hm with hc | hc
    · exact h2 hc.symm
    · exact ih hc

theorem unifyEol_fix {s : Str} (h : '\r' ∉ s) : unifyEol s = s := by
  induction s using unifyEol.induct with
  | case1 => rfl
  | case2 rest ih => simp at h
  | case3 rest hne ih => simp at h
  | case4 c rest h1 h2 ih =>
    have hc : c ≠ '\r' := by
      intro hcr; exact h (by rw [hcr]; exact List.mem_cons_self _ _)
    rw [unifyEol_cons_of_ne c rest hc]
    have ht : '\r' ∉ rest := fun hm => h (List.mem_cons_of_mem _ hm)
    rw [ih ht]

theorem mem_collapseBlanks {b : Bool} {L : List Str} {l : Str}
    (h : l ∈ collapseBlanks b L) : l ∈ L := by
  induction L generalizing b with
  | nil => simp [collapseBlanks] at h
  | cons a t ih =>
    unfold collapseBlanks at h
    by_cases ha : a.isEmpty && b
    · rw [if_pos ha] at h
      exact List.mem_cons_of_mem _ (ih h)
    · rw [if_neg ha] at h
      rcases List.mem_cons.mp h with h1 | h1
      · exact h1 ▸ List.mem_cons_self _ _
      · exact List.mem_cons_of_mem _ (ih h1)

theorem collapseBlanks_head_true {L : List Str} :
    (collapseBlanks true L).head? ≠ some [] := by
  induction L with
  | nil => simp [collapseBlanks]
  | cons a t ih =>
    unfold collapseBlanks
    by_cases ha : a.isEmpty
    · simpa [ha] using ih
    · have ha' : a ≠ [] := by simpa [List.isEmpty_iff] using ha
      simp [ha]
      exact fun h => ha' h

theorem collapseBlanks_chain (b : Bool) (L : List Str) :
    NoTwoBlank (collapseBlanks b L) := by
  induction L generalizing b with
  | nil => exact List.chain'_nil
  | cons a t ih =>
    unfold collapseBlanks
    by_cases ha : a.isEmpty && b
    · rw [if_pos ha]
      exact ih b
    · rw [if_neg ha]
      rw [NoTwoBlank, List.chain'_cons']
      refine ⟨?_, ih a.isEmpty⟩
      intro y hy hblank
      have ha2 : a.isEmpty = true := by
        rw [hblank]; rfl
      intro hy0
      rw [ha2, Option.mem_def] at hy
      rw [hy0] at hy
      exact collapseBlanks_head_true hy

theorem collapseBlanks_fix {L : List Str} {b : Bool} (hch : NoTwoBlank L)
    (hhd : b = true → L.head? ≠ some []) : collapseBlanks b L = L := by
  induction L generalizing b with
  | nil => rfl
  | cons a t ih =>
    unfold collapseBlanks
    have hab : (a.isEmpty && b) = false := by
      by_cases hb : b = true
      · by_cases ha : a.isEmpty
        · exact absurd (by rw [List.isEmpty_iff.mp ha]; rfl) (hhd hb)
        · simp [ha]
      · simp [Bool.of_not_eq_true hb]
    rw [if_neg (by simp [hab])]
    rw [NoTwoBlank, List.chain'_cons'] at hch
    congr 1
    refine ih hch.2 ?_
    intro hea
    have ha0 : a = [] := List.isEmpty_iff.mp hea
    intro hsome
    cases ht : t.head? with
    | none => rw [ht] at hsome; cases hsome
    | some y =>
      rw [ht] at hsome
      have : y = [] := by injection hsome
      exact (hch.1 y (by rw [ht, Option.mem_def]) ha0) this

theorem joinNl_append_single (N : List Str) (a : Str) :
    joinNl (N ++ [a]) = if N.isEmpty then a else joinNl N ++ '\n' :: a := by
  induction N with
  | nil => simp [joinNl]
  | cons x t ih =>
    cases t with
    | nil => simp [joinNl]
    | cons y u =>
      have : joinNl ((x :: y :: u) ++ [a]) = x ++ '\n' :: joinNl ((y :: u) ++ [a]) := by
        simp only [List.cons_append]
        rw [joinNl]
      rw [this, ih]
      simp [joinNl, List.append_assoc]

theorem mem_joinNl {c : Char} {D : List Str} (h : c ∈ joinNl D) :
    c = '\n' ∨ ∃ l ∈ D, c ∈ l := by
  induction D with
  | nil => simp [joinNl] at h
  | cons a t ih =>
    cases t with
    | nil =>
      simp [joinNl] at h
      exact Or.inr ⟨a, List.mem_cons_self _ _, h⟩
    | cons b u =>
      rw [joinNl] at h
      rcases List.mem_append.mp h with h1 | h1
      · exact Or.inr ⟨a, List.mem_cons_self _ _, h1⟩
      · rcases List.mem_cons.mp h1 with h2 | h2
        · exact Or.inl h2
        · rcases ih h2 with h3 | ⟨l, hl, hcl⟩
          · exact Or.inl h3
          · exact Or.inr ⟨l, List.mem_cons_of_mem _ hl, hcl⟩

theorem dropTrailBlanks_nil : dropTrailBlanks [] = [] := rfl

theorem dropTrailBlanks_append_nonblank {M : List Str} {a : Str} (ha : a ≠ []) :
    dropTrailBlanks (M ++ [a]) = M ++ [a] := by
  unfold dropTrailBlanks
  rw [List.reverse_append]
  simp only [List.reverse_cons, List.reverse_nil, List.nil_append,
    List.singleton_append]
  rw [List.dropWhile_cons_of_neg (by simpa [List.isEmpty_iff] using ha)]
  simp

theorem dropTrailBlanks_append_blank (M : List Str) :
    dropTrailBlanks (M ++ [[]]) = dropTrailBlanks M := by
  unfold dropTrailBlanks
  rw [List.reverse_append]
  simp only [List.reverse_cons, List.reverse_nil, List.nil_append,
    List.singleton_append]
  rw [List.dropWhile_cons_of_pos (by simp)]

theorem mem_dropTrailBlanks {M : List Str} {l : Str}
    (h : l ∈ dropTrailBlanks M) : l ∈ M := by
  unfold dropTrailBlanks at h
  rw [List.mem_reverse] at h
  exact List.mem_reverse.mp ((List.dropWhile_sublist _).mem h)

theorem getLast?_dropTrailBlanks {M : List Str} {l : Str}
    (h : (dropTrailBlanks M).getLast? = some l) : l ≠ [] := by
  rw [List.getLast?_eq_head?_reverse] at h
  unfold dropTrailBlanks at h
  rw [List.reverse_reverse] at h
  have := List.head?_dropWhile_not List.isEmpty M.reverse
  rw [h] at this
  simpa [List.isEmpty_iff] using this

theorem prefix_dropTrailBlanks (M : List Str) :
    ∃ R, M = dropTrailBlanks M ++ R := by
  refine ⟨(M.reverse.takeWhile List.isEmpty).reverse, ?_⟩
  unfold dropTrailBlanks
  rw [← List.reverse_append, List.takeWhile_append_dropWhile, List.reverse_reverse]

theorem noTwoBlank_dropTrailBlanks {M : List Str} (h : NoTwoBlank M) :
    NoTwoBlank (dropTrailBlanks M) := by
  obtain ⟨R, hR⟩ := prefix_dropTrailBlanks M
  rw [hR, NoTwoBlank, List.chain'_append] at h
  exact h.1

theorem splitNl_append_nl {a : Str} (rest : Str) (ha : '\n' ∉ a) :
    splitNl (a ++ '\n' :: rest) = a :: splitNl rest := by
  induction a with
  | nil =>
    rw [List.nil_append]
    conv_lhs => rw [splitNl]
    cases hsp : splitNl rest with
    | nil => exact absurd hsp (splitNl_ne_nil rest)
    | cons h t => simp
  | cons c a' ih =>
    have hc : c ≠ '\n' := fun h => ha (h ▸ List.mem_cons_self _ _)
    have ha' : '\n' ∉ a' := fun h => ha (List.mem_cons_of_mem _ h)
    rw [List.cons_append]
    conv_lhs => rw [splitNl]
    rw [ih ha']
    simp [hc]

theorem splitNl_joinNl {D : List Str} (hne : D ≠ [])
    (hnl : ∀ l ∈ D, '\n' ∉ l) : splitNl (joinNl D ++ ['\n']) = D ++ [[]] := by
  induction D with
  | nil => exact absurd rfl hne
  | cons a t ih =>
    cases t with
    | nil =>
      rw [joinNl]
      rw [show a ++ ['\n'] = a ++ '\n' :: [] from rfl]
      rw [splitNl_append_nl [] (hnl a (List.mem_cons_self _ _))]
      rfl
    | cons b u =>
      rw [joinNl]
      rw [List.append_assoc, List.cons_append]
      rw [splitNl_append_nl _ (hnl a (List.mem_cons_self _ _))]
      rw [ih (by simp) (fun l hl => hnl l (List.mem_cons_of_mem _ hl))]
      rfl

theorem map_rstrip_fix {L : List Str} (h : ∀ l ∈ L, rstrip l = l) :
    L.map rstrip = L := by
  induction L with
  | nil => rfl
  | cons a t ih =>
    rw [List.map_cons, h a (List.mem_cons_self _ _),
      ih (fun l hl => h l (List.mem_cons_of_mem _ hl))]

theorem rstrip_joinNl {M : List Str} (h : ∀ l ∈ M, rstrip l = l) :
    rstrip (joinNl M) = joinNl (dropTrailBlanks M) := by
  induction M using List.reverseRecOn with
  | nil => rfl
  | append_singleton N a ih =>
    have hN : ∀ l ∈ N, rstrip l = l :=
      fun l hl => h l (List.mem_append_left _ hl)
    have haa : rstrip a = a := h a (List.mem_append_right _ (List.mem_cons_self _ _))
    rw [joinNl_append_single]
    by_cases hNe : N.isEmpty
    · have hN0 : N = [] := List.isEmpty_iff.mp hNe
      subst hN0
      show rstrip a = joinNl (dropTrailBlanks ([] ++ [a]))
      by_cases ha0 : a = []
      · subst ha0
        rfl
      · rw [dropTrailBlanks_append_nonblank ha0]
        rw [show joinNl ([] ++ [a]) = a from rfl]
        exact haa
    · rw [if_neg hNe]
      by_cases ha0 : a = []
      · subst ha0
        rw [show ('\n' :: ([] : Str)) = ['\n'] from rfl,
          rstrip_append_space (by decide), dropTrailBlanks_append_blank]
        exact ih hN
      · rw [dropTrailBlanks_append_nonblank ha0]
        rw [joinNl_append_single, if_neg hNe]
        have hsplit : joinNl N ++ '\n' :: a = (joinNl N ++ ['\n']) ++ a := by
          rw [List.append_assoc]; rfl
        rw [hsplit]
        exact rstrip_append_fix haa ha0

theorem mem_midLines {s : Str} {l : Str} (h : l ∈ midLines s) :
    ∃ l2, l2 ∈ splitNl (unifyEol s) ∧ l = rstrip l2 := by
  have h2 := mem_collapseBlanks h
  obtain ⟨l2, hl2, hr⟩ := List.mem_map.mp h2
  exact ⟨l2, hl2, hr.symm⟩

theorem midLines_rstripped {s : Str} : ∀ l ∈ midLines s, rstrip l = l := by
  intro l hl
  obtain ⟨l2, _, rfl⟩ := mem_midLines hl
  exact rstrip_idem l2

theorem normalize_text_char (s : Str) :
    normalize_text s = joinNl (dropTrailBlanks (midLines s)) ++ ['\n'] := by
  unfold normalize_text
  rw [show collapseBlanks false ((splitNl (unifyEol s)).map rstrip) = midLines s
    from rfl]
  rw [rstrip_joinNl (midLines_rstripped (s := s))]

theorem dropTrailBlanks_fix {D : List Str}
    (h : ∀ l, D.getLast? = some l → l ≠ []) : dropTrailBlanks D = D := by
  induction D using List.reverseRecOn with
  | nil => rfl
  | append_singleton N a ih =>
    have ha : a ≠ [] := h a (by rw [List.getLast?_concat])
    exact dropTrailBlanks_append_nonblank ha

theorem normalize_fixpoint {D : List Str}
    (h1 : ∀ l ∈ D, rstrip l = l) (h2 : ∀ l ∈ D, '\n' ∉ l)
    (h3 : ∀ l ∈ D, '\r' ∉ l) (h4 : NoTwoBlank D)
    (h5 : ∀ l, D.getLast? = some l → l ≠ []) :
    normalize_text (joinNl D ++ ['\n']) = joinNl D ++ ['\n'] := by
  by_cases hne : D = []
  · subst hne
    decide
  · have hcr : '\r' ∉ joinNl D ++ ['\n'] := by
      intro hm
      rcases List.mem_append.mp hm with hm | hm
      · rcases mem_joinNl hm with hnl | ⟨l, hl, hcl⟩
        · exact absurd hnl (by decide)
        · exact h3 l hl hcl
      · simp at hm
    have hmid : midLines (joinNl D ++ ['\n']) = D ++ [[]] := by
      unfold midLines
      rw [unifyEol_fix hcr, splitNl_joinNl hne h2, List.map_append,
        map_rstrip_fix h1,
        show ([[]] : List Str).map rstrip = [[]] from rfl]
      apply collapseBlanks_fix
      · rw [NoTwoBlank, List.chain'_append]
        refine ⟨h4, List.chain'_singleton _, ?_⟩
        intro x hx y hy
        have hy0 : y = [] := by simpa using hy
        intro hx0
        rw [Option.mem_def] at hx
        exact absurd hx0 (h5 x hx)
      · intro hfalse
        exact absurd hfalse (by decide)
    rw [normalize_text_char, hmid, dropTrailBlanks_append_blank,
      dropTrailBlanks_fix h5]

theorem normalize_text_idem (s : Str) :
    normalize_text (normalize_text s) = normalize_text s := by
  rw [normalize_text_char s]
  apply normalize_fixpoint
  · intro l hl
    exact midLines_rstripped l (mem_dropTrailBlanks hl)
  · intro l hl
    obtain ⟨l2, hl2, rfl⟩ := mem_midLines (mem_dropTrailBlanks hl)
    intro hn
    exact noNl_splitNl hl2 (mem_rstrip hn)
  · intro l hl
    obtain ⟨l2, hl2, rfl⟩ := mem_midLines (mem_dropTrailBlanks hl)
    intro hr
    exact noCr_unifyEol _ (mem_of_mem_splitNl (mem_rstrip hr) hl2)
  · exact noTwoBlank_dropTrailBlanks (collapseBlanks_chain false _)
  · intro l hl
    exact getLast?_dropTrailBlanks hl

/-- C7: `normalize_text` is idempotent — normalising already-normalised text
is the identity, for every input string. -/
theorem C7_normalize_idempotent (s : Str) :
    normalize_text (normalize_text s) = normalize_text s :=
  normalize_text_idem s

/-- C2 (amended): the two-calls-in-a-row contract holds for every
`(path, content)` pair such that the path already exists on disk (module
constant `ALLOW_CREATE = False` forbids creation), its name is not caught by
the suspicious-name guard, its parent directory exists, and the current
on-disk content does not already normalise to the new content: then the
first non-dry call returns `written = True`, the second returns
`written = False`, and the on-disk content after both calls is the
normalised content. -/
theorem C2_idempotent_write_amended (agg : Bool) (st : FsState)
    (path contents old : Str)
    (hold : st.fs.lookup path = some old)
    (hsus : suspiciousName path = false)
    (hdiff : normalize_text old ≠ normalize_text contents)
    (hdir : st.dirs.contains (parentDir path) = true) :
    (atomic_write agg st path contents false).2 = true ∧
    (atomic_write agg (atomic_write agg st path contents false).1 path contents
        false).2 = false ∧
    (atomic_write agg (atomic_write agg st path contents false).1 path contents
        false).1.fs.lookup path = some (normalize_text contents) := by
  have hdirm : parentDir path ∈ st.dirs := by simpa using hdir
  have h2 : (old == normalize_text contents) = false := by
    rw [beq_eq_false_iff_ne]
    intro heq
    exact hdiff (by rw [heq, normalize_text_idem])
  have h1 : (normalize_text old == normalize_text contents) = false := by
    rw [beq_eq_false_iff_ne]
    exact hdiff
  have hfirst : atomic_write agg st path contents false =
      ({ st with
          fs := setAssoc path (normalize_text contents) st.fs,
          hashes := setAssoc path (normalize_text contents) st.hashes }, true) := by
    unfold atomic_write
    rw [if_neg (by simp)]
    rw [if_neg (by simp [hold])]
    rw [if_neg (by simp [hsus])]
    simp only [hold, sha256_text, h1, h2, Bool.false_eq_true, if_false]
    unfold writeStep
    rw [if_neg (by simp [hold, sha256_text, h2])]
    rw [if_neg (by simp [ALLOW_CREATE, hdirm])]
  set st1 : FsState :=
    { st with
        fs := setAssoc path (normalize_text contents) st.fs,
        hashes := setAssoc path (normalize_text contents) st.hashes } with hst1
  have hlook1 : st1.fs.lookup path = some (normalize_text contents) :=
    Anchor.lookup_setAssoc_self path _ st.fs
  have hhash1 : st1.hashes.lookup path = some (normalize_text contents) :=
    Anchor.lookup_setAssoc_self path _ st.hashes
  have hsecond : atomic_write agg st1 path contents false = (st1, false) := by
    unfold atomic_write
    rw [if_neg (by simp)]
    rw [if_neg (by simp [hlook1])]
    rw [if_neg (by simp [hsus])]
    simp only [hlook1, sha256_text]
    rw [if_pos (by rw [beq_iff_eq]; exact normalize_text_idem contents)]
    unfold repairLedger
    rw [if_pos (by rw [hhash1]; exact beq_self_eq_true _)]
  refine ⟨by rw [hfirst], ?_, ?_⟩
  · rw [hfirst]
    simp only
    rw [hsecond]
  · rw [hfirst]
    simp only
    rw [hsecond]
    exact hlook1

theorem C2_idempotent_write_witness :
    ((⟨[("d/f.txt".toList, "old\n".toList)], ["d".toList],
        []⟩ : FsState).fs.lookup "d/f.txt".toList = some "old\n".toList) ∧
    suspiciousName "d/f.txt".toList = false ∧
    normalize_text "old\n".toList ≠ normalize_text "new\n".toList ∧
    (atomic_write true
      ⟨[("d/f.txt".toList, "old\n".toList)], ["d".toList], []⟩
      "d/f.txt".toList "new\n".toList false).2 = true := by
  refine ⟨by decide, by decide, by decide, ?_⟩
  exact (C2_idempotent_write_amended true
    ⟨[("d/f.txt".toList, "old\n".toList)], ["d".toList], []⟩
    "d/f.txt".toList "new\n".toList "old\n".toList
    (by decide) (by decide) (by decide) (by decide)).1

end Anchor.ImproveV2

namespace Anchor.AiFix

theorem token_overlap_comm (a b : Str) : token_overlap a b = token_overlap b a := by
  unfold token_overlap
  by_cases ha : a.isEmpty <;> by_cases hb : b.isEmpty <;> simp [ha, hb]
  by_cases hta : tokenSet a = ∅ <;> by_cases htb : tokenSet b = ∅ <;>
    simp [hta, htb]
  rw [Finset.inter_comm, min_comm]

/-- C8: `same_issue_sig` is symmetric: the emptiness guard, the two substring
tests and the token-overlap test are each symmetric in the two arguments. -/
theorem C8_signature_symmetry (a b : Str) :
    same_issue_sig a b = same_issue_sig b a := by
  unfold same_issue_sig
  by_cases ha : a.isEmpty <;> by_cases hb : b.isEmpty <;>
    simp [ha, hb, token_overlap_comm a b, Bool.or_comm]

/-- C10: an empty signature never matches anything — `same_issue_sig` returns
`False` whenever either argument is empty, even though the empty string is a
substring of every string; and `token_overlap` returns `0` whenever either
argument has no word tokens. -/
theorem C10_empty_signature :
    (∀ b : Str, same_issue_sig [] b = false ∧ same_issue_sig b [] = false) ∧
    (∀ a b : Str, tokens a = [] ∨ tokens b = [] → token_overlap a b = 0) := by
  constructor
  · intro b
    constructor <;> simp [same_issue_sig]
  · intro a b h
    unfold token_overlap
    by_cases ha : a.isEmpty <;> by_cases hb : b.isEmpty <;> simp [ha, hb]
    rcases h with h | h
    · intro hta htb
      exact absurd (by simp [tokenSet, h]) hta
    · intro hta htb
      exact absurd (by simp [tokenSet, h]) htb

theorem C10_empty_signature_witness :
    same_issue_sig [] "err".toList = false ∧
    (tokens "!!!".toList = [] ∨ tokens "abc".toList = []) ∧
    token_overlap "!!!".toList "abc".toList = 0 :=
  ⟨(C10_empty_signature.1 "err".toList).1, Or.inl (by decide),
    C10_empty_signature.2 "!!!".toList "abc".toList (Or.inl (by decide))⟩

/-- C9 counterexample: the guard compares the digest of the **raw** candidate
(`sha256(fixed)`), not of a normalised form.  With the cache recording the
digest of `"a\n"` and the new verified candidate `"a"`, the candidate's
normalised digest equals the recorded one, yet the code does not skip: the
candidate is applied and the file is written — so the claim, whose trigger is
the normalised hash, is false at this input. -/
theorem C9_duplicate_guard_counterexample :
    sha256 (Anchor.ImproveV2.normalize_text "a".toList) =
      sha256 "a\n".toList ∧
    ([("k".toList, sha256 "a\n".toList)] : List (Str × Str)).lookup
        "k".toList = some (sha256 "a\n".toList) ∧
    (aiPhase false [] [("f".toList, "old".toList)]
        [("k".toList, sha256 "a\n".toList)] [] "k".toList "f".toList
        "old".toList "".toList "a".toList).wrote = true ∧
    (aiPhase false [] [("f".toList, "old".toList)]
        [("k".toList, sha256 "a\n".toList)] [] "k".toList "f".toList
        "old".toList "".toList "a".toList).fs.lookup "f".toList =
      some "a".toList := by
  refine ⟨by decide, by decide, by decide, by decide⟩

/-- C9 (amended): the duplicate-output guard triggers on the digest of the
**raw** verified candidate: when the cache records for this unit the digest
of the candidate itself, the AI phase is a complete no-op — the file is not
written, the cache, the filesystem and the issue database are unchanged, and
the candidate is not applied.  (A candidate equal to the recorded output only
up to normalisation is applied, not skipped.) -/
theorem C9_duplicate_guard (dry : Bool) (cur : List Issue)
    (fs cache : List (Str × Str)) (db : DB)
    (key path content excerpt fixed : Str)
    (h : cache.lookup key = some (sha256 fixed)) :
    aiPhase dry cur fs cache db key path content excerpt fixed =
      ⟨fs, cache, db, false⟩ := by
  unfold aiPhase
  rw [if_pos (by rw [h]; exact beq_self_eq_true _)]

theorem C9_duplicate_guard_witness :
    ([("k".toList, "FIX".toList)] : List (Str × Str)).lookup "k".toList =
        some (sha256 "FIX".toList) ∧
    aiPhase false [] [("f".toList, "old".toList)] [("k".toList, "FIX".toList)]
        [] "k".toList "f".toList "old".toList "".toList "FIX".toList =
      ⟨[("f".toList, "old".toList)], [("k".toList, "FIX".toList)], [], false⟩ :=
  ⟨by decide, C9_duplicate_guard false [] [("f".toList, "old".toList)]
    [("k".toList, "FIX".toList)] [] "k".toList "f".toList "old".toList
    "".toList "FIX".toList (by decide)⟩

theorem lookup_of_mem_nodup {β : Type} {l : List (Str × β)} {k : Str} {v : β}
    (hnd : (Anchor.keysOf l).Nodup) (h : (k, v) ∈ l) : l.lookup k = some v := by
  induction l with
  | nil => simp at h
  | cons e t ih =>
    obtain ⟨a, b⟩ := e
    have hnda : a ∉ Anchor.keysOf t := by
      simp only [Anchor.keysOf, List.map_cons, List.nodup_cons] at hnd
      exact hnd.1
    have hndt : (Anchor.keysOf t).Nodup := by
      simp only [Anchor.keysOf, List.map_cons, List.nodup_cons] at hnd
      exact hnd.2
    rcases List.mem_cons.mp h with h1 | h1
    · rw [show k = a from congrArg Prod.fst h1,
        show v = b from congrArg Prod.snd h1]
      exact Anchor.lookup_cons_eq a b t
    · have hka : k ≠ a := by
        rintro rfl
        exact hnda (List.mem_map.mpr ⟨(k, v), h1, rfl⟩)
      rw [Anchor.lookup_cons_ne _ _ hka]
      exact ih hndt h1

theorem lookup_dbUpdate_ne {db : DB} {sid k : Str} {v : Stored} (h : k ≠ sid) :
    (dbUpdate db sid v).lookup k = db.lookup k := by
  induction db with
  | nil => rfl
  | cons e t ih =>
    obtain ⟨a, b⟩ := e
    by_cases hea : a = sid
    · subst hea
      have hsid : ((a, b).1 == a) = true := beq_self_eq_true _
      show (((if (a, b).1 == a then (a, v) else (a, b))) :: dbUpdate t a v).lookup k
          = ((a, b) :: t).lookup k
      rw [if_pos hsid]
      rw [Anchor.lookup_cons_ne _ _ h, Anchor.lookup_cons_ne _ _ h]
      exact ih
    · have hne : ((a, b).1 == sid) = false := by simpa using hea
      show (((if (a, b).1 == sid then (sid, v) else (a, b))) :: dbUpdate t sid v).lookup k
          = ((a, b) :: t).lookup k
      rw [if_neg (by simp [hne])]
      by_cases hka : k = a
      · subst hka
        rw [Anchor.lookup_cons_eq, Anchor.lookup_cons_eq]
      · rw [Anchor.lookup_cons_ne _ _ hka, Anchor.lookup_cons_ne _ _ hka]
        exact ih

/-- C4: a stored resolution whose `reuseCount` has reached the configured
`MAX_ISSUE_REUSE` bound is never auto-reapplied by the stored-solution phase
(the write, when any, applies a different stored entry), and its database
entry — in particular its `reuseCount` — is left unchanged; the skip branch
is the manual-review flagging of the source. -/
theorem C4_reuse_bound (maxReuse : Nat) (dry : Bool) (db : DB)
    (content path : Str) (cur : List Issue) (sid : Str) (s : Stored)
    (hnd : (Anchor.keysOf db).Nodup) (hs : db.lookup sid = some s)
    (hmax : maxReuse ≤ s.reuseCount) :
    (∀ sid2 c, (applyStoredPhase maxReuse dry db content path cur).wrote =
        some (sid2, c) → sid2 ≠ sid) ∧
    (applyStoredPhase maxReuse dry db content path cur).db.lookup sid =
      some s := by
  induction cur with
  | nil => exact ⟨fun _ _ h => Option.noConfusion h, hs⟩
  | cons c rest ih =>
    rw [applyStoredPhase]
    split
    · exact ih
    · next sid2 s2 hfs =>
      split
      · exact ih
      · next sc hlf =>
        split_ifs with hemp heqc hlim hdry
        · exact ih
        · refine ⟨fun _ _ h => ?_, hs⟩
          cases h
        · exact ih
        · refine ⟨fun _ _ h => ?_, hs⟩
          cases h
        · have hmem : (sid2, s2) ∈ db := List.mem_of_find?_eq_some hfs
          have hlook2 : db.lookup sid2 = some s2 :=
            lookup_of_mem_nodup hnd hmem
          have hne : sid2 ≠ sid := by
            rintro rfl
            rw [hs] at hlook2
            injection hlook2 with h2
            rw [h2] at hmax
            exact hlim hmax
          refine ⟨?_, ?_⟩
          · intro sid3 c3 h3
            injection h3 with h3
            have h4 : sid2 = sid3 := congrArg Prod.fst h3
            rw [← h4]
            exact hne
          · exact (lookup_dbUpdate_ne (fun h => hne h.symm)).trans hs

theorem C4_reuse_bound_witness :
    (Anchor.keysOf
        ([("i1".toList, ⟨"err foo".toList, [("f".toList, "new".toList)], 20⟩)]
          : DB)).Nodup ∧
    (applyStoredPhase 20 false
        [("i1".toList, ⟨"err foo".toList, [("f".toList, "new".toList)], 20⟩)]
        "old".toList "f".toList
        [⟨"x".toList, "err foo".toList⟩]).wrote = none ∧
    (applyStoredPhase 20 false
        [("i1".toList, ⟨"err foo".toList, [("f".toList, "new".toList)], 20⟩)]
        "old".toList "f".toList
        [⟨"x".toList, "err foo".toList⟩]).db.lookup "i1".toList =
      some ⟨"err foo".toList, [("f".toList, "new".toList)], 20⟩ := by
  refine ⟨by decide, by decide, ?_⟩
  exact (C4_reuse_bound 20 false
    [("i1".toList, ⟨"err foo".toList, [("f".toList, "new".toList)], 20⟩)]
    "old".toList "f".toList [⟨"x".toList, "err foo".toList⟩] "i1".toList
    ⟨"err foo".toList, [("f".toList, "new".toList)], 20⟩
    (by decide) (by decide) (by decide)).2

theorem mem_keysOf_iff {β : Type} {l : List (Str × β)} {k : Str} :
    k ∈ Anchor.keysOf l ↔ ∃ v, (k, v) ∈ l := by
  constructor
  · intro h
    obtain ⟨e, he, hk⟩ := List.mem_map.mp h
    exact ⟨e.2, by rw [← hk]; exact he⟩
  · rintro ⟨v, hv⟩
    exact List.mem_map.mpr ⟨(k, v), hv, rfl⟩

theorem lookup_isSome_of_mem_keys {β : Type} {l : List (Str × β)} {k : Str}
    (h : k ∈ Anchor.keysOf l) : (l.lookup k).isSome = true := by
  obtain ⟨v, hv⟩ := mem_keysOf_iff.mp h
  induction l with
  | nil => simp at hv
  | cons e t ih =>
    obtain ⟨a, b⟩ := e
    by_cases hk : k = a
    · subst hk
      rw [Anchor.lookup_cons_eq]
      rfl
    · rw [Anchor.lookup_cons_ne _ _ hk]
      rcases List.mem_cons.mp hv with h1 | h1
      · exact absurd (congrArg Prod.fst h1) hk
      · exact ih (mem_keysOf_iff.mpr ⟨v, h1⟩) h1

theorem keysOf_dbUpdate (db : DB) (sid : Str) (v : Stored) :
    Anchor.keysOf (dbUpdate db sid v) = Anchor.keysOf db := by
  induction db with
  | nil => rfl
  | cons e t ih =>
    obtain ⟨a, b⟩ := e
    show Anchor.keysOf ((if (a, b).1 == sid then (sid, v) else (a, b)) :: dbUpdate t sid v)
      = Anchor.keysOf ((a, b) :: t)
    by_cases ha : a = sid
    · subst ha
      rw [if_pos (beq_self_eq_true a)]
      show a :: Anchor.keysOf (dbUpdate t a v) = a :: Anchor.keysOf t
      rw [ih]
    · rw [if_neg (by simpa using ha)]
      show a :: Anchor.keysOf (dbUpdate t sid v) = a :: Anchor.keysOf t
      rw [ih]

theorem keysOf_dbSetFile (db : DB) (sid path c : Str) :
    Anchor.keysOf (dbSetFile db sid path c) = Anchor.keysOf db := by
  induction db with
  | nil => rfl
  | cons e t ih =>
    show Anchor.keysOf ((if e.1 == sid then
        (e.1, { e.2 with files := Anchor.setAssoc path c e.2.files }) else e)
          :: dbSetFile t sid path c)
      = Anchor.keysOf (e :: t)
    by_cases ha : (e.1 == sid) = true
    · rw [if_pos ha]
      show e.1 :: Anchor.keysOf (dbSetFile t sid path c) = e.1 :: Anchor.keysOf t
      rw [ih]
    · rw [if_neg (by simpa using ha)]
      show e.1 :: Anchor.keysOf (dbSetFile t sid path c) = e.1 :: Anchor.keysOf t
      rw [ih]

theorem keysOf_dbSetdefault_mono {db : DB} {sid sig k : Str}
    (h : k ∈ Anchor.keysOf db) : k ∈ Anchor.keysOf (dbSetdefault db sid sig) := by
  unfold dbSetdefault
  by_cases hl : (db.lookup sid).isSome
  · rw [if_pos hl]
    exact h
  · rw [if_neg hl]
    unfold Anchor.keysOf at h ⊢
    rw [List.map_append]
    exact List.mem_append_left _ h

theorem keysOf_dbSetdefault_bound {db : DB} {sid sig k : Str}
    (h : k ∈ Anchor.keysOf (dbSetdefault db sid sig)) :
    k ∈ Anchor.keysOf db ∨ k = sid := by
  unfold dbSetdefault at h
  by_cases hl : (db.lookup sid).isSome
  · rw [if_pos hl] at h
    exact Or.inl h
  · rw [if_neg hl] at h
    unfold Anchor.keysOf at h
    rw [List.map_append] at h
    rcases List.mem_append.mp h with h1 | h1
    · exact Or.inl h1
    · simp at h1
      exact Or.inr h1

theorem keysOf_stageFix_mono {cur : List Issue} {cond : Issue → Bool} {db : DB}
    {path fixed k : Str} (h : k ∈ Anchor.keysOf db) :
    k ∈ Anchor.keysOf (stageFix cur cond db path fixed) := by
  induction cur generalizing db with
  | nil => exact h
  | cons c rest ih =>
    show k ∈ Anchor.keysOf (stageFix rest cond
      (if cond c then dbSetFile (dbSetdefault db c.id c.signature) c.id path fixed else db)
      path fixed)
    by_cases hc : cond c = true
    · rw [if_pos hc]
      apply ih
      rw [keysOf_dbSetFile]
      exact keysOf_dbSetdefault_mono h
    · rw [if_neg hc]
      exact ih h

theorem keysOf_stageFix_bound {cur : List Issue} {cond : Issue → Bool} {db : DB}
    {path fixed k : Str}
    (h : k ∈ Anchor.keysOf (stageFix cur cond db path fixed)) :
    k ∈ Anchor.keysOf db ∨ k ∈ cur.map Issue.id := by
  induction cur generalizing db with
  | nil => exact Or.inl h
  | cons c rest ih =>
    rw [show stageFix (c :: rest) cond db path fixed = stageFix rest cond
      (if cond c then dbSetFile (dbSetdefault db c.id c.signature) c.id path fixed else db)
      path fixed from rfl] at h
    by_cases hc : cond c = true
    · rw [if_pos hc] at h
      rcases ih h with h1 | h1
      · rw [keysOf_dbSetFile] at h1
        rcases keysOf_dbSetdefault_bound h1 with h2 | h2
        · exact Or.inl h2
        · exact Or.inr (by rw [h2]; exact List.mem_map.mpr ⟨c, List.mem_cons_self _ _, rfl⟩)
      · exact Or.inr (List.mem_map.mpr
          (by obtain ⟨i, hi, hk⟩ := List.mem_map.mp h1
              exact ⟨i, List.mem_cons_of_mem _ hi, hk⟩))
    · rw [if_neg hc] at h
      rcases ih h with h1 | h1
      · exact Or.inl h1
      · exact Or.inr (List.mem_map.mpr
          (by obtain ⟨i, hi, hk⟩ := List.mem_map.mp h1
              exact ⟨i, List.mem_cons_of_mem _ hi, hk⟩))

theorem keysOf_applyStoredPhase (maxReuse : Nat) (dry : Bool) (db : DB)
    (content path : Str) (cur : List Issue) :
    Anchor.keysOf (applyStoredPhase maxReuse dry db content path cur).db =
      Anchor.keysOf db := by
  induction cur with
  | nil => rfl
  | cons c rest ih =>
    rw [applyStoredPhase]
    split
    · exact ih
    · next sid2 s2 hfs =>
      split
      · exact ih
      · next sc hlf =>
        split_ifs with hemp heqc hlim hdry
        · exact ih
        · rfl
        · exact ih
        · rfl
        · exact keysOf_dbUpdate db sid2 _

theorem keysOf_aiPhase_mono {dry : Bool} {cur : List Issue}
    {fs cache : List (Str × Str)} {db : DB}
    {key path content excerpt fixed k : Str}
    (h : k ∈ Anchor.keysOf db) :
    k ∈ Anchor.keysOf
      (aiPhase dry cur fs cache db key path content excerpt fixed).db := by
  unfold aiPhase
  dsimp only
  split_ifs <;> first
    | exact h
    | exact keysOf_stageFix_mono h

theorem keysOf_aiPhase_bound {dry : Bool} {cur : List Issue}
    {fs cache : List (Str × Str)} {db : DB}
    {key path content excerpt fixed k : Str}
    (h : k ∈ Anchor.keysOf
      (aiPhase dry cur fs cache db key path content excerpt fixed).db) :
    k ∈ Anchor.keysOf db ∨ k ∈ cur.map Issue.id := by
  unfold aiPhase at h
  dsimp only at h
  split_ifs at h <;> first
    | exact Or.inl h
    | exact keysOf_stageFix_bound h

theorem keysOf_processFile_mono {maxReuse : Nat} {dry : Bool}
    {cur : List Issue} {st : RunState} {t : FileTask} {k : Str}
    (h : k ∈ Anchor.keysOf st.db) :
    k ∈ Anchor.keysOf (processFile maxReuse dry cur st t).db := by
  have hsp := keysOf_applyStoredPhase maxReuse dry st.db t.content t.path cur
  unfold processFile
  dsimp only
  split_ifs
  · show k ∈ Anchor.keysOf
      (applyStoredPhase maxReuse dry st.db t.content t.path cur).db
    rw [hsp]
    exact h
  · cases hf : t.fixed with
    | none =>
      show k ∈ Anchor.keysOf
        (applyStoredPhase maxReuse dry st.db t.content t.path cur).db
      rw [hsp]
      exact h
    | some fx =>
      show k ∈ Anchor.keysOf (aiPhase dry cur st.fs st.cache
        (applyStoredPhase maxReuse dry st.db t.content t.path cur).db
        t.key t.path t.content t.excerpt fx).db
      exact keysOf_aiPhase_mono (by rw [hsp]; exact h)

theorem keysOf_processFile_bound {maxReuse : Nat} {dry : Bool}
    {cur : List Issue} {st : RunState} {t : FileTask} {k : Str}
    (h : k ∈ Anchor.keysOf (processFile maxReuse dry cur st t).db) :
    k ∈ Anchor.keysOf st.db ∨ k ∈ cur.map Issue.id := by
  have hsp := keysOf_applyStoredPhase maxReuse dry st.db t.content t.path cur
  unfold processFile at h
  dsimp only at h
  split_ifs at h
  · have h2 : k ∈ Anchor.keysOf
        (applyStoredPhase maxReuse dry st.db t.content t.path cur).db := h
    rw [hsp] at h2
    exact Or.inl h2
  · revert h
    cases hf : t.fixed with
    | none =>
      intro h
      have h2 : k ∈ Anchor.keysOf
          (applyStoredPhase maxReuse dry st.db t.content t.path cur).db := h
      rw [hsp] at h2
      exact Or.inl h2
    | some fx =>
      intro h
      have h2 : k ∈ Anchor.keysOf (aiPhase dry cur st.fs st.cache
          (applyStoredPhase maxReuse dry st.db t.content t.path cur).db
          t.key t.path t.content t.excerpt fx).db := h
      rcases keysOf_aiPhase_bound h2 with h1 | h1
      · rw [hsp] at h1
        exact Or.inl h1
      · exact Or.inr h1

theorem keysOf_runFold_mono {maxReuse : Nat} {dry : Bool} {cur : List Issue}
    {tasks : List FileTask} {st : RunState} {k : Str}
    (h : k ∈ Anchor.keysOf st.db) :
    k ∈ Anchor.keysOf (tasks.foldl (processFile maxReuse dry cur) st).db := by
  induction tasks generalizing st with
  | nil => exact h
  | cons t rest ih => exact ih (keysOf_processFile_mono h)

theorem keysOf_runFold_bound {maxReuse : Nat} {dry : Bool} {cur : List Issue}
    {tasks : List FileTask} {st : RunState} {k : Str}
    (h : k ∈ Anchor.keysOf (tasks.foldl (processFile maxReuse dry cur) st).db) :
    k ∈ Anchor.keysOf st.db ∨ k ∈ cur.map Issue.id := by
  induction tasks generalizing st with
  | nil => exact Or.inl h
  | cons t rest ih =>
    rcases ih h with h1 | h1
    · exact keysOf_processFile_bound h1
    · exact Or.inr h1

/-- C6: auto-forget — in a full run (fuzzy matching, the auto-forget loop,
then the per-file loop, whose final database is persisted unchanged), every
stored issue whose signature matches no currently detected issue, and whose
id is not the id of a current issue, is absent from the persisted database;
and every stored issue whose signature does match a current issue is
retained. -/
theorem C6_auto_forget (maxReuse : Nat) (dry : Bool) (db : DB)
    (cur : List Issue) (fs cache : List (Str × Str)) (tasks : List FileTask)
    (hnd : (Anchor.keysOf db).Nodup) :
    (∀ sid s, (sid, s) ∈ db → matchesCurrent cur s = false →
        sid ∉ cur.map Issue.id →
        sid ∉ Anchor.keysOf (runAiFix maxReuse dry db cur fs cache tasks).db) ∧
    (∀ sid s, (sid, s) ∈ db → matchesCurrent cur s = true →
        sid ∈ Anchor.keysOf (runAiFix maxReuse dry db cur fs cache tasks).db) := by
  constructor
  · intro sid s hmem hmf hnotid hfinal
    unfold runAiFix at hfinal
    rcases @keysOf_runFold_bound maxReuse dry cur tasks
        ⟨fs, cache, autoForget db cur⟩ sid hfinal with h1 | h1
    · obtain ⟨s2, hs2⟩ := mem_keysOf_iff.mp h1
      have hm2 := List.mem_filter.mp hs2
      have hls : db.lookup sid = some s := lookup_of_mem_nodup hnd hmem
      have hls2 : db.lookup sid = some s2 := lookup_of_mem_nodup hnd hm2.1
      rw [hls] at hls2
      injection hls2 with h2
      rw [← h2] at hm2
      rw [hmf] at hm2
      exact absurd hm2.2 (by simp)
    · exact hnotid h1
  · intro sid s hmem hmt
    unfold runAiFix
    apply keysOf_runFold_mono
    exact mem_keysOf_iff.mpr ⟨s, List.mem_filter.mpr ⟨hmem, hmt⟩⟩

theorem C6_auto_forget_witness :
    (("i1".toList, (⟨"zzz qqq".toList, [], 0⟩ : Stored)) ∈
      ([("i1".toList, ⟨"zzz qqq".toList, [], 0⟩)] : DB)) ∧
    matchesCurrent [⟨"x".toList, "err foo".toList⟩]
        ⟨"zzz qqq".toList, [], 0⟩ = false ∧
    "i1".toList ∉ Anchor.keysOf (runAiFix 20 false
      [("i1".toList, ⟨"zzz qqq".toList, [], 0⟩)]
      [⟨"x".toList, "err foo".toList⟩] [] [] []).db := by
  have hcard0 :
      (tokenSet "zzz qqq".toList ∩ tokenSet "err foo".toList).card = 0 := by
    decide
  have h3 : token_overlap "zzz qqq".toList "err foo".toList = 0 := by
    unfold token_overlap
    rw [if_neg (by decide), if_neg (by decide), hcard0]
    norm_num
  have hsig : same_issue_sig "zzz qqq".toList "err foo".toList = false := by
    unfold same_issue_sig
    rw [if_neg (by decide), if_neg (by decide), h3,
      decide_eq_false_iff_not]
    norm_num
  have hm : matchesCurrent [⟨"x".toList, "err foo".toList⟩]
      (⟨"zzz qqq".toList, [], 0⟩ : Stored) = false := by
    unfold matchesCurrent
    simp only [List.any_cons, List.any_nil, Bool.or_false]
    exact hsig
  refine ⟨by decide, hm, ?_⟩
  exact (C6_auto_forget 20 false
    [("i1".toList, ⟨"zzz qqq".toList, [], 0⟩)]
    [⟨"x".toList, "err foo".toList⟩] [] [] [] (by decide)).1
    "i1".toList ⟨"zzz qqq".toList, [], 0⟩ (by decide) hm (by decide)

end Anchor.AiFix
